import Mathlib

/-!
Verification of the kd-tree vertex matching program `vertMatch.py`.

The geometric core (`buildKdTree`, `distanceSquare`, `closerDistance`,
`nearestNeighbor`) and the orchestration (`redoIt`, `undoIt` of the
`vertMatch` command class) are embedded shallowly.  Coordinates live in an
arbitrary linearly ordered commutative ring `R`, an exact model of the
coordinate arithmetic the source performs (subtraction, multiplication,
addition, negation and comparison only — no division ever touches a
coordinate); concrete evaluations instantiate `R := ℤ`.  `n / 2` on list
lengths is floor division, as in the source.  The stable builtin sort of
the host language is modelled by `List.insertionSort`, which is stable, so
it produces the same output as the sort used by the source.
-/

namespace VertMatch

/-- A 3D point, as carried by the host geometry API (x, y, z coordinates). -/
structure Point (R : Type) where
  x : R
  y : R
  z : R
deriving DecidableEq

variable {R : Type} [LinearOrderedCommRing R]

instance : Inhabited (Point R) := ⟨⟨0, 0, 0⟩⟩

/-- Coordinate access `point[axis]` for axis 0, 1, 2. -/
def Point.coord (p : Point R) : Nat → R
  | 0 => p.x
  | 1 => p.y
  | _ => p.z

/-- Source `distanceSquare`: componentwise difference, then sum of squares. -/
def distanceSquare (point1 point2 : Point R) : R :=
  (point1.x - point2.x) * (point1.x - point2.x) +
  (point1.y - point2.y) * (point1.y - point2.y) +
  (point1.z - point2.z) * (point1.z - point2.z)

/-- Source `closerDistance`: absent candidates lose; otherwise the strictly
closer candidate wins, and on a tie the second argument is returned. -/
def closerDistance (pivot : Point R) (p1 p2 : Option (Point R)) : Option (Point R) :=
  match p1, p2 with
  | none, _ => p2
  | _, none => p1
  | some q1, some q2 =>
      if distanceSquare pivot q1 < distanceSquare pivot q2 then some q1 else some q2

/-- A kd-tree: the `None` sentinel, or a node with a stored point and the
`negative` and `positive` subtrees. -/
inductive KdTree (R : Type) where
  | nil : KdTree R
  | node (negative : KdTree R) (point : Point R) (positive : KdTree R) : KdTree R
deriving DecidableEq

/-- Comparison of points by one coordinate, the sort key used at a given axis. -/
def axisLe (axis : Nat) (p q : Point R) : Prop :=
  p.coord axis ≤ q.coord axis

instance (axis : Nat) : DecidableRel (axisLe (R := R) axis) := fun p q =>
  inferInstanceAs (Decidable (p.coord axis ≤ q.coord axis))

instance (axis : Nat) : IsTotal (Point R) (axisLe axis) :=
  ⟨fun p q => le_total (p.coord axis) (q.coord axis)⟩

instance (axis : Nat) : IsTrans (Point R) (axisLe axis) :=
  ⟨fun _ _ _ h h2 => le_trans h h2⟩

instance (axis : Nat) : IsRefl (Point R) (axisLe axis) :=
  ⟨fun p => le_refl (p.coord axis)⟩

/-- Fuel-indexed version of the source `buildKdTree`, so that the function
computes by structural recursion.  `buildKdTree` below supplies fuel
`points.length`, which is always enough (see `buildKdTreeFuel_congr`). -/
def buildKdTreeFuel : Nat → List (Point R) → Nat → KdTree R
  | 0, _, _ => KdTree.nil
  | fuel + 1, points, depth =>
    if points.length = 0 then KdTree.nil
    else
      let axis := depth % 3
      let sorted_points := points.insertionSort (axisLe axis)
      KdTree.node
        (buildKdTreeFuel fuel (sorted_points.take (points.length / 2)) (depth + 1))
        (sorted_points.getD (points.length / 2) default)
        (buildKdTreeFuel fuel (sorted_points.drop (points.length / 2 + 1)) (depth + 1))

/-- Source `buildKdTree points depth`: empty input gives the `None` sentinel;
otherwise sort stably by the coordinate `depth % 3`, store the median
(index `len / 2`, floor division) at the node, and recurse on the two
remaining halves at depth + 1.  The source calls it with depth 0. -/
def buildKdTree (points : List (Point R)) (depth : Nat) : KdTree R :=
  buildKdTreeFuel points.length points depth

/-- Source `nearestNeighbor`.  Because this embedding is pure, both subtree
results are written down up front; the opposite branch result is used only
when the pruning test passes, exactly as in the source, whose `** 2` on the
axis gap is written here as a self-multiplication. -/
def nearestNeighbor : KdTree R → Point R → Nat → Option (Point R)
  | KdTree.nil, _, _ => none
  | KdTree.node negT pt posT, in_point, depth =>
    let axis := depth % 3
    let negRes := nearestNeighbor negT in_point (depth + 1)
    let posRes := nearestNeighbor posT in_point (depth + 1)
    let nextRes := if in_point.coord axis < pt.coord axis then negRes else posRes
    let oppRes := if in_point.coord axis < pt.coord axis then posRes else negRes
    match closerDistance in_point nextRes (some pt) with
    | none => none
    | some nearest =>
      if distanceSquare in_point nearest >
          (in_point.coord axis - pt.coord axis) * (in_point.coord axis - pt.coord axis) then
        closerDistance in_point oppRes (some nearest)
      else
        some nearest

/-- The points stored in a tree, one per node, in left-to-right node order. -/
def KdTree.toList : KdTree R → List (Point R)
  | KdTree.nil => []
  | KdTree.node negT pt posT => negT.toList ++ pt :: posT.toList

/-- All stored points satisfy a predicate. -/
def KdTree.all (f : Point R → Bool) : KdTree R → Bool
  | KdTree.nil => true
  | KdTree.node negT pt posT => negT.all f && f pt && posT.all f

/-- The splitting invariant the built tree actually satisfies: at a node of
depth `d` with axis `a = d % 3`, the negative subtree holds points whose
coordinate `a` is ≤ the node point coordinate, the positive subtree points
whose coordinate `a` is ≥ it. -/
def kdInvariant : KdTree R → Nat → Bool
  | KdTree.nil, _ => true
  | KdTree.node negT pt posT, depth =>
    (negT.all fun q => decide (q.coord (depth % 3) ≤ pt.coord (depth % 3))) &&
    (posT.all fun q => decide (pt.coord (depth % 3) ≤ q.coord (depth % 3))) &&
    kdInvariant negT (depth + 1) && kdInvariant posT (depth + 1)

/-- The splitting invariant exactly as the specification words it: the
negative subtree holds points whose axis coordinate is strictly less than
the node point coordinate. -/
def kdInvariantStrict : KdTree R → Nat → Bool
  | KdTree.nil, _ => true
  | KdTree.node negT pt posT, depth =>
    (negT.all fun q => decide (q.coord (depth % 3) < pt.coord (depth % 3))) &&
    (posT.all fun q => decide (pt.coord (depth % 3) ≤ q.coord (depth % 3))) &&
    kdInvariantStrict negT (depth + 1) && kdInvariantStrict posT (depth + 1)

/-- The mirror transform of `redoIt`: `point[0] *= -1`. -/
def mirrorPoint (p : Point R) : Point R :=
  ⟨p.x * -1, p.y, p.z⟩

/-- The state of the `vertMatch` command object: the positions of the first
selected component group (the targets, written back by the match), the
positions of the remaining groups, the mirror flag, and the accumulated
`initialState` snapshot list. -/
structure VMState (R : Type) where
  targets : List (Point R)
  refGroups : List (List (Point R))
  mirror : Bool
  initialState : List (Point R)
deriving DecidableEq

/-- The list `tree_ls` collected by the first loop of `redoIt`: on the first
group, nothing unless the mirror flag is set, in which case each target
point with its x coordinate negated; then every point of every remaining
group, verbatim. -/
def treeList (s : VMState R) : List (Point R) :=
  (if s.mirror then s.targets.map mirrorPoint else []) ++ s.refGroups.flatten

/-- The collection the specification says a mirrored match uses: the
reference groups with each x coordinate negated.  Written from the
specification, for comparison with `treeList`. -/
def specMirrorCollection (s : VMState R) : List (Point R) :=
  s.refGroups.flatten.map mirrorPoint

/-- The second loop of `redoIt`, over the target points.  Returns the
`initialState` entries appended, the target positions after the loop, and
whether the loop ran to completion.  Per point: the original position is
recorded first; with the mirror flag set, a point with x ≥ 0 is skipped;
otherwise the position is set to the nearest-neighbor result.  An absent
result cannot be written back (the host `setPosition(None)` raises), which
ends the loop with every remaining position unchanged. -/
def redoItLoop (tree : KdTree R) (mirror : Bool) :
    List (Point R) → List (Point R) × List (Point R) × Bool
  | [] => ([], [], true)
  | p :: rest =>
    if mirror = true ∧ 0 ≤ p.x then
      let r := redoItLoop tree mirror rest
      (p :: r.1, p :: r.2.1, r.2.2)
    else
      match nearestNeighbor tree p 0 with
      | none => ([p], p :: rest, false)
      | some c =>
        let r := redoItLoop tree mirror rest
        (p :: r.1, c :: r.2.1, r.2.2)

/-- Source `redoIt`: collect `tree_ls`, build the tree, then run the target
loop.  The Boolean reports whether the loop completed without the host
raising. -/
def redoIt (s : VMState R) : VMState R × Bool :=
  let vert_tree := buildKdTree (treeList s) 0
  let r := redoItLoop vert_tree s.mirror s.targets
  ({ s with targets := r.2.1, initialState := s.initialState ++ r.1 }, r.2.2)

/-- Source `undoIt`: write `initialState[i]` back into target position `i`
for every target index.  When the snapshot is shorter than the target group
the host raises an index error, modelled by `none`. -/
def undoIt (s : VMState R) : Option (VMState R) :=
  if s.targets.length ≤ s.initialState.length then
    some { s with targets := s.initialState.take s.targets.length }
  else
    none

/-- `k` consecutive `redoIt` calls; the Boolean is true when every call
completed. -/
def redoIts : Nat → VMState R → VMState R × Bool
  | 0, s => (s, true)
  | k + 1, s =>
    let r := redoIt s
    let r2 := redoIts k r.1
    (r2.1, r.2 && r2.2)

/-- The fuel argument of `buildKdTreeFuel` is irrelevant once it reaches the
length of the input. -/
theorem buildKdTreeFuel_congr (f1 f2 : Nat) (points : List (Point R)) (depth : Nat)
    (h1 : points.length ≤ f1) (h2 : points.length ≤ f2) :
    buildKdTreeFuel f1 points depth = buildKdTreeFuel f2 points depth := by
  induction f1 generalizing f2 points depth with
  | zero =>
    have hp : points = [] := List.eq_nil_of_length_eq_zero (Nat.le_zero.mp h1)
    subst hp
    cases f2 <;> simp [buildKdTreeFuel]
  | succ f1 ih =>
    cases f2 with
    | zero =>
      have hp : points = [] := List.eq_nil_of_length_eq_zero (Nat.le_zero.mp h2)
      subst hp
      simp [buildKdTreeFuel]
    | succ f2 =>
      by_cases hn : points.length = 0
      · simp [buildKdTreeFuel, hn]
      · have hs : (points.insertionSort (axisLe (depth % 3))).length = points.length :=
          List.length_insertionSort _ _
        simp only [buildKdTreeFuel, hn, if_false]
        congr 1
        · apply ih
          · rw [List.length_take, hs]; omega
          · rw [List.length_take, hs]; omega
        · apply ih
          · rw [List.length_drop, hs]; omega
          · rw [List.length_drop, hs]; omega

/-- `buildKdTree` satisfies the recursive equation of the source verbatim. -/
theorem buildKdTree_unfold (points : List (Point R)) (depth : Nat) :
    buildKdTree points depth =
    if points.length = 0 then KdTree.nil
    else
      KdTree.node
        (buildKdTree ((points.insertionSort (axisLe (depth % 3))).take (points.length / 2))
          (depth + 1))
        ((points.insertionSort (axisLe (depth % 3))).getD (points.length / 2) default)
        (buildKdTree ((points.insertionSort (axisLe (depth % 3))).drop (points.length / 2 + 1))
          (depth + 1)) := by
  unfold buildKdTree
  rcases hn : points.length with _ | m
  · have hp : points = [] := List.eq_nil_of_length_eq_zero hn
    subst hp
    simp [buildKdTreeFuel]
  · have hs : (points.insertionSort (axisLe (depth % 3))).length = points.length :=
      List.length_insertionSort _ _
    rw [buildKdTreeFuel]
    simp only [hn, Nat.succ_ne_zero, if_false]
    congr 1
    · apply buildKdTreeFuel_congr
      all_goals try simp only [List.length_take, List.length_drop, hs]
      all_goals omega
    · apply buildKdTreeFuel_congr
      all_goals try simp only [List.length_take, List.length_drop, hs]
      all_goals omega

/-- The points stored across the nodes of a built tree are a permutation of
the input points. -/
theorem buildKdTreeFuel_toList_perm (fuel : Nat) :
    ∀ (points : List (Point R)) (depth : Nat), points.length ≤ fuel →
    (buildKdTreeFuel fuel points depth).toList.Perm points := by
  induction fuel with
  | zero =>
    intro points depth h
    have hp : points = [] := List.eq_nil_of_length_eq_zero (Nat.le_zero.mp h)
    subst hp
    simp [buildKdTreeFuel, KdTree.toList]
  | succ fuel ih =>
    intro points depth h
    by_cases hn : points.length = 0
    · have hp : points = [] := List.eq_nil_of_length_eq_zero hn
      subst hp
      simp [buildKdTreeFuel, KdTree.toList]
    · set sorted := points.insertionSort (axisLe (depth % 3)) with hsorted
      have hs : sorted.length = points.length := List.length_insertionSort _ _
      have hmid : points.length / 2 < sorted.length := by omega
      simp only [buildKdTreeFuel, hn, if_false, KdTree.toList]
      have h1 : (buildKdTreeFuel fuel (sorted.take (points.length / 2)) (depth + 1)).toList.Perm
          (sorted.take (points.length / 2)) := by
        apply ih
        rw [List.length_take, hs]; omega
      have h2 : (buildKdTreeFuel fuel (sorted.drop (points.length / 2 + 1)) (depth + 1)).toList.Perm
          (sorted.drop (points.length / 2 + 1)) := by
        apply ih
        rw [List.length_drop, hs]; omega
      have hgetD : sorted.getD (points.length / 2) default = sorted[points.length / 2] :=
        List.getD_eq_getElem _ _ hmid
      rw [hgetD]
      have hchain : sorted.take (points.length / 2) ++
          sorted[points.length / 2] :: sorted.drop (points.length / 2 + 1) = sorted := by
        rw [← List.drop_eq_getElem_cons hmid, List.take_append_drop]
      refine (List.Perm.append h1 (List.Perm.cons _ h2)).trans ?_
      rw [hchain]
      exact List.perm_insertionSort _ _

/-- The multiset of points stored in the built tree equals the input. -/
theorem buildKdTree_toList_perm (points : List (Point R)) (depth : Nat) :
    (buildKdTree points depth).toList.Perm points :=
  buildKdTreeFuel_toList_perm _ points depth le_rfl

/-- `KdTree.all` holds exactly when the predicate holds on every stored point. -/
theorem kdTree_all_eq_true (f : Point R → Bool) (t : KdTree R) :
    t.all f = true ↔ ∀ q ∈ t.toList, f q = true := by
  induction t with
  | nil => simp [KdTree.all, KdTree.toList]
  | node negT pt posT ihn ihp =>
    simp only [KdTree.all, KdTree.toList, Bool.and_eq_true, ihn, ihp, List.mem_append,
      List.mem_cons]
    constructor
    · rintro ⟨⟨hneg, hpt⟩, hpos⟩ q (hq | hq | hq)
      · exact hneg q hq
      · exact hq ▸ hpt
      · exact hpos q hq
    · intro hall
      exact ⟨⟨fun q hq => hall q (Or.inl hq), hall pt (Or.inr (Or.inl rfl))⟩,
        fun q hq => hall q (Or.inr (Or.inr hq))⟩

/-- The built tree satisfies the non-strict splitting invariant. -/
theorem buildKdTreeFuel_invariant (fuel : Nat) :
    ∀ (points : List (Point R)) (depth : Nat), points.length ≤ fuel →
    kdInvariant (buildKdTreeFuel fuel points depth) depth = true := by
  induction fuel with
  | zero =>
    intro points depth h
    have hp : points = [] := List.eq_nil_of_length_eq_zero (Nat.le_zero.mp h)
    subst hp
    simp [buildKdTreeFuel, kdInvariant]
  | succ fuel ih =>
    intro points depth h
    by_cases hn : points.length = 0
    · simp [buildKdTreeFuel, hn, kdInvariant]
    · set a := depth % 3 with ha
      set sorted := points.insertionSort (axisLe a) with hsorted
      have hsort : List.Sorted (axisLe a) sorted := List.sorted_insertionSort (axisLe a) points
      have hs : sorted.length = points.length := List.length_insertionSort _ _
      have hmid : points.length / 2 < sorted.length := by omega
      have hmed : sorted.getD (points.length / 2) default = sorted[points.length / 2] :=
        List.getD_eq_getElem _ _ hmid
      have htake : (sorted.take (points.length / 2)).length ≤ fuel := by
        rw [List.length_take]; omega
      have hdrop : (sorted.drop (points.length / 2 + 1)).length ≤ fuel := by
        rw [List.length_drop]; omega
      simp only [buildKdTreeFuel, hn, if_false, kdInvariant, Bool.and_eq_true]
      refine ⟨⟨⟨?_, ?_⟩, ih _ _ htake⟩, ih _ _ hdrop⟩
      · rw [kdTree_all_eq_true]
        intro q hq
        have hqtake : q ∈ sorted.take (points.length / 2) :=
          (buildKdTreeFuel_toList_perm fuel _ _ htake).mem_iff.mp hq
        have hmemdrop : sorted.getD (points.length / 2) default ∈
            sorted.drop (points.length / 2) := by
          rw [hmed, List.drop_eq_getElem_cons hmid]
          exact List.mem_cons_self _ _
        exact decide_eq_true (hsort.rel_of_mem_take_of_mem_drop hqtake hmemdrop)
      · rw [kdTree_all_eq_true]
        intro q hq
        have hqdrop : q ∈ sorted.drop (points.length / 2 + 1) :=
          (buildKdTreeFuel_toList_perm fuel _ _ hdrop).mem_iff.mp hq
        have hmemtake : sorted.getD (points.length / 2) default ∈
            sorted.take (points.length / 2 + 1) := by
          rw [hmed, List.take_succ, List.getElem?_eq_getElem hmid]
          exact List.mem_append_right _ (List.mem_singleton.mpr rfl)
        exact decide_eq_true (hsort.rel_of_mem_take_of_mem_drop hmemtake hqdrop)

/-- The invariant of the built tree, stated over `buildKdTree`. -/
theorem buildKdTree_invariant (points : List (Point R)) (depth : Nat) :
    kdInvariant (buildKdTree points depth) depth = true :=
  buildKdTreeFuel_invariant _ points depth le_rfl

/-- `closerDistance` with a present second candidate: the result is present,
it is at least as close as either candidate, and it is one of them. -/
theorem closerDistance_some_right (piv p : Point R) (o : Option (Point R)) :
    ∃ r, closerDistance piv o (some p) = some r ∧
      distanceSquare piv r ≤ distanceSquare piv p ∧
      (∀ q, o = some q → distanceSquare piv r ≤ distanceSquare piv q) ∧
      (r = p ∨ o = some r) := by
  cases o with
  | none =>
    refine ⟨p, rfl, le_rfl, ?_, Or.inl rfl⟩
    intro q hq
    cases hq
  | some q =>
    by_cases h : distanceSquare piv q < distanceSquare piv p
    · refine ⟨q, by simp [closerDistance, h], le_of_lt h, ?_, Or.inr rfl⟩
      intro q' hq'
      cases hq'
      exact le_rfl
    · refine ⟨p, by simp [closerDistance, h], le_rfl, ?_, Or.inl rfl⟩
      intro q' hq'
      cases hq'
      exact le_of_not_lt h

/-- A present nearest-neighbor result is a point stored in the tree. -/
theorem nearestNeighbor_mem : ∀ (t : KdTree R) (q : Point R) (d : Nat) (r : Point R),
    nearestNeighbor t q d = some r → r ∈ t.toList := by
  intro t q
  induction t with
  | nil =>
    intro d r hr
    simp [nearestNeighbor] at hr
  | node negT pt posT ihn ihp =>
    intro d r hr
    simp only [nearestNeighbor] at hr
    have hmem : r ∈ negT.toList ∨ r = pt ∨ r ∈ posT.toList := by
      by_cases hc : q.coord (d % 3) < pt.coord (d % 3)
      · simp only [if_pos hc] at hr
        obtain ⟨r1, he1, -, -, hprov1⟩ :=
          closerDistance_some_right q pt (nearestNeighbor negT q (d + 1))
        simp only [he1] at hr
        split at hr
        · obtain ⟨r2, he2, -, -, hprov2⟩ :=
            closerDistance_some_right q r1 (nearestNeighbor posT q (d + 1))
          rw [he2] at hr
          cases hr
          rcases hprov2 with rfl | hpos
          · rcases hprov1 with rfl | hneg
            · exact Or.inr (Or.inl rfl)
            · exact Or.inl (ihn _ _ hneg)
          · exact Or.inr (Or.inr (ihp _ _ hpos))
        · cases hr
          rcases hprov1 with rfl | hneg
          · exact Or.inr (Or.inl rfl)
          · exact Or.inl (ihn _ _ hneg)
      · simp only [if_neg hc] at hr
        obtain ⟨r1, he1, -, -, hprov1⟩ :=
          closerDistance_some_right q pt (nearestNeighbor posT q (d + 1))
        simp only [he1] at hr
        split at hr
        · obtain ⟨r2, he2, -, -, hprov2⟩ :=
            closerDistance_some_right q r1 (nearestNeighbor negT q (d + 1))
          rw [he2] at hr
          cases hr
          rcases hprov2 with rfl | hneg
          · rcases hprov1 with rfl | hpos
            · exact Or.inr (Or.inl rfl)
            · exact Or.inr (Or.inr (ihp _ _ hpos))
          · exact Or.inl (ihn _ _ hneg)
        · cases hr
          rcases hprov1 with rfl | hpos
          · exact Or.inr (Or.inl rfl)
          · exact Or.inr (Or.inr (ihp _ _ hpos))
    simp only [KdTree.toList, List.mem_append, List.mem_cons]
    tauto

/-- A query on a non-`nil` tree always produces a candidate. -/
theorem nearestNeighbor_isSome (t : KdTree R) (q : Point R) (d : Nat)
    (h : t ≠ KdTree.nil) : ∃ r, nearestNeighbor t q d = some r := by
  cases t with
  | nil => exact absurd rfl h
  | node negT pt posT =>
    simp only [nearestNeighbor]
    by_cases hc : q.coord (d % 3) < pt.coord (d % 3)
    · simp only [if_pos hc]
      obtain ⟨r1, he1, -, -, -⟩ :=
        closerDistance_some_right q pt (nearestNeighbor negT q (d + 1))
      simp only [he1]
      split
      · obtain ⟨r2, he2, -, -, -⟩ :=
          closerDistance_some_right q r1 (nearestNeighbor posT q (d + 1))
        exact ⟨r2, he2⟩
      · exact ⟨r1, rfl⟩
    · simp only [if_neg hc]
      obtain ⟨r1, he1, -, -, -⟩ :=
        closerDistance_some_right q pt (nearestNeighbor posT q (d + 1))
      simp only [he1]
      split
      · obtain ⟨r2, he2, -, -, -⟩ :=
          closerDistance_some_right q r1 (nearestNeighbor negT q (d + 1))
        exact ⟨r2, he2⟩
      · exact ⟨r1, rfl⟩

/-- Squared distances are nonnegative. -/
theorem distanceSquare_nonneg (p q : Point R) : 0 ≤ distanceSquare p q := by
  unfold distanceSquare
  have h1 := mul_self_nonneg (p.x - q.x)
  have h2 := mul_self_nonneg (p.y - q.y)
  have h3 := mul_self_nonneg (p.z - q.z)
  linarith

/-- A squared distance vanishes exactly on equal points. -/
theorem distanceSquare_eq_zero_iff (p q : Point R) : distanceSquare p q = 0 ↔ p = q := by
  constructor
  · intro h
    unfold distanceSquare at h
    have h1 := mul_self_nonneg (p.x - q.x)
    have h2 := mul_self_nonneg (p.y - q.y)
    have h3 := mul_self_nonneg (p.z - q.z)
    have hx : (p.x - q.x) * (p.x - q.x) = 0 := by linarith
    have hy : (p.y - q.y) * (p.y - q.y) = 0 := by linarith
    have hz : (p.z - q.z) * (p.z - q.z) = 0 := by linarith
    cases p
    cases q
    simp only [Point.mk.injEq]
    refine ⟨?_, ?_, ?_⟩ <;>
      [exact sub_eq_zero.mp (mul_self_eq_zero.mp hx);
       exact sub_eq_zero.mp (mul_self_eq_zero.mp hy);
       exact sub_eq_zero.mp (mul_self_eq_zero.mp hz)]
  · rintro rfl
    unfold distanceSquare
    ring

/-- The squared gap along one axis bounds the squared distance from below. -/
theorem coord_sq_le_distanceSquare (q p : Point R) (ax : Nat) (h : ax < 3) :
    (q.coord ax - p.coord ax) * (q.coord ax - p.coord ax) ≤ distanceSquare q p := by
  interval_cases ax <;>
    simp only [Point.coord, distanceSquare] <;>
    nlinarith [mul_self_nonneg (q.x - p.x), mul_self_nonneg (q.y - p.y),
      mul_self_nonneg (q.z - p.z)]

/-- Moving the nearer plane point to a farther one on the same side can only
grow the squared axis gap. -/
theorem sq_sub_le_left {x m p : R} (h1 : x ≤ m) (h2 : m ≤ p) :
    (x - m) * (x - m) ≤ (x - p) * (x - p) := by
  nlinarith

/-- Mirror image of `sq_sub_le_left`. -/
theorem sq_sub_le_right {x m p : R} (h1 : p ≤ m) (h2 : m ≤ x) :
    (x - m) * (x - m) ≤ (x - p) * (x - p) := by
  nlinarith

/-- A present nearest-neighbor result on a tree satisfying the splitting
invariant is at least as close to the query as every stored point. -/
theorem nearestNeighbor_le : ∀ (t : KdTree R) (q : Point R) (d : Nat) (r : Point R),
    kdInvariant t d = true → nearestNeighbor t q d = some r →
    ∀ p ∈ t.toList, distanceSquare q r ≤ distanceSquare q p := by
  intro t q
  induction t with
  | nil =>
    intro d r _ hr
    simp [nearestNeighbor] at hr
  | node negT pt posT ihn ihp =>
    intro d r hinv hr p hp
    have hax : d % 3 < 3 := Nat.mod_lt _ (by norm_num)
    simp only [kdInvariant, Bool.and_eq_true, kdTree_all_eq_true, decide_eq_true_eq] at hinv
    obtain ⟨⟨⟨hnegle, hposle⟩, hinvneg⟩, hinvpos⟩ := hinv
    simp only [KdTree.toList, List.mem_append, List.mem_cons] at hp
    simp only [nearestNeighbor] at hr
    by_cases hc : q.coord (d % 3) < pt.coord (d % 3)
    · simp only [if_pos hc] at hr
      obtain ⟨r1, he1, hle1, hopt1, -⟩ :=
        closerDistance_some_right q pt (nearestNeighbor negT q (d + 1))
      simp only [he1] at hr
      have hnear : ∀ p', p' ∈ negT.toList → distanceSquare q r1 ≤ distanceSquare q p' := by
        intro p' hp'
        have hne : negT ≠ KdTree.nil := by
          intro hnil
          rw [hnil] at hp'
          simp [KdTree.toList] at hp'
        obtain ⟨rn, hrn⟩ := nearestNeighbor_isSome negT q (d + 1) hne
        exact le_trans (hopt1 rn hrn) (ihn _ _ hinvneg hrn p' hp')
      split at hr
      · -- pruning test passed: the positive branch was searched too
        rename_i hgap
        obtain ⟨r2, he2, hle2, hopt2, -⟩ :=
          closerDistance_some_right q r1 (nearestNeighbor posT q (d + 1))
        rw [he2] at hr
        cases hr
        rcases hp with hp | hp | hp
        · exact le_trans hle2 (hnear p hp)
        · exact le_trans hle2 (hp ▸ hle1)
        · have hne : posT ≠ KdTree.nil := by
            intro hnil
            rw [hnil] at hp
            simp [KdTree.toList] at hp
          obtain ⟨rp, hrp⟩ := nearestNeighbor_isSome posT q (d + 1) hne
          exact le_trans (hopt2 rp hrp) (ihp _ _ hinvpos hrp p hp)
      · -- pruning test failed: everything beyond the plane is at least as far
        rename_i hgap
        push_neg at hgap
        cases hr
        rcases hp with hp | hp | hp
        · exact hnear p hp
        · exact hp ▸ hle1
        · have hplane : (q.coord (d % 3) - pt.coord (d % 3)) *
              (q.coord (d % 3) - pt.coord (d % 3)) ≤
              (q.coord (d % 3) - p.coord (d % 3)) *
              (q.coord (d % 3) - p.coord (d % 3)) :=
            sq_sub_le_left (le_of_lt hc) (hposle p hp)
          exact le_trans hgap (le_trans hplane (coord_sq_le_distanceSquare q p _ hax))
    · simp only [if_neg hc] at hr
      obtain ⟨r1, he1, hle1, hopt1, -⟩ :=
        closerDistance_some_right q pt (nearestNeighbor posT q (d + 1))
      simp only [he1] at hr
      have hnear : ∀ p', p' ∈ posT.toList → distanceSquare q r1 ≤ distanceSquare q p' := by
        intro p' hp'
        have hne : posT ≠ KdTree.nil := by
          intro hnil
          rw [hnil] at hp'
          simp [KdTree.toList] at hp'
        obtain ⟨rp, hrp⟩ := nearestNeighbor_isSome posT q (d + 1) hne
        exact le_trans (hopt1 rp hrp) (ihp _ _ hinvpos hrp p' hp')
      split at hr
      · rename_i hgap
        obtain ⟨r2, he2, hle2, hopt2, -⟩ :=
          closerDistance_some_right q r1 (nearestNeighbor negT q (d + 1))
        rw [he2] at hr
        cases hr
        rcases hp with hp | hp | hp
        · have hne : negT ≠ KdTree.nil := by
            intro hnil
            rw [hnil] at hp
            simp [KdTree.toList] at hp
          obtain ⟨rn, hrn⟩ := nearestNeighbor_isSome negT q (d + 1) hne
          exact le_trans (hopt2 rn hrn) (ihn _ _ hinvneg hrn p hp)
        · exact le_trans hle2 (hp ▸ hle1)
        · exact le_trans hle2 (hnear p hp)
      · rename_i hgap
        push_neg at hgap
        cases hr
        rcases hp with hp | hp | hp
        · have hplane : (q.coord (d % 3) - pt.coord (d % 3)) *
              (q.coord (d % 3) - pt.coord (d % 3)) ≤
              (q.coord (d % 3) - p.coord (d % 3)) *
              (q.coord (d % 3) - p.coord (d % 3)) :=
            sq_sub_le_right (hnegle p hp) (le_of_not_lt hc)
          exact le_trans hgap (le_trans hplane (coord_sq_le_distanceSquare q p _ hax))
        · exact hp ▸ hle1
        · exact hnear p hp

/-- The target loop never changes the number of target points. -/
theorem redoItLoop_length (tree : KdTree R) (mirror : Bool) :
    ∀ ps : List (Point R), (redoItLoop tree mirror ps).2.1.length = ps.length := by
  intro ps
  induction ps with
  | nil => simp [redoItLoop]
  | cons p rest ih =>
    simp only [redoItLoop]
    split
    · simpa using ih
    · split
      · simp
      · simpa using ih

/-- When the loop completes, the snapshot entries it appends are exactly the
target points, in order. -/
theorem redoItLoop_snap_of_ok (tree : KdTree R) (mirror : Bool) :
    ∀ ps : List (Point R), (redoItLoop tree mirror ps).2.2 = true →
    (redoItLoop tree mirror ps).1 = ps := by
  intro ps
  induction ps with
  | nil => simp [redoItLoop]
  | cons p rest ih =>
    simp only [redoItLoop]
    split
    · intro hok
      simp only at hok
      simp [ih hok]
    · split
      · intro hok
        simp at hok
      · intro hok
        simp only at hok
        simp [ih hok]

/-- On a non-`nil` tree the loop always completes. -/
theorem redoItLoop_ok_of_ne_nil (tree : KdTree R) (mirror : Bool)
    (htree : tree ≠ KdTree.nil) :
    ∀ ps : List (Point R), (redoItLoop tree mirror ps).2.2 = true := by
  intro ps
  induction ps with
  | nil => simp [redoItLoop]
  | cons p rest ih =>
    simp only [redoItLoop]
    split
    · simpa using ih
    · obtain ⟨c, hc⟩ := nearestNeighbor_isSome tree p 0 htree
      simp only [hc]
      simpa using ih

/-- A target point the mirror test skips keeps its position, whether or not
the loop later fails. -/
theorem redoItLoop_getElem_skip (tree : KdTree R) :
    ∀ (ps : List (Point R)) (i : Nat) (hi : i < ps.length), 0 ≤ ps[i].x →
    (redoItLoop tree true ps).2.1[i]? = some ps[i] := by
  intro ps
  induction ps with
  | nil =>
    intro i hi
    simp at hi
  | cons p rest ih =>
    intro i hi hx
    simp only [redoItLoop]
    split
    · cases i with
      | zero => simp
      | succ j =>
        have hj : j < rest.length := by simpa using hi
        simpa using ih j hj (by simpa using hx)
    · rename_i hcond
      cases i with
      | zero =>
        exact absurd ⟨by trivial, by simpa using hx⟩ hcond
      | succ j =>
        have hj : j < rest.length := by simpa using hi
        split
        · simp
        · simpa using ih j hj (by simpa using hx)

/-- In a completed loop, a target point the mirror test does not skip is
replaced by its nearest-neighbor result. -/
theorem redoItLoop_getElem_matched (tree : KdTree R) (mirror : Bool) :
    ∀ (ps : List (Point R)) (i : Nat) (hi : i < ps.length),
    (redoItLoop tree mirror ps).2.2 = true →
    ¬(mirror = true ∧ 0 ≤ ps[i].x) →
    ∃ c, nearestNeighbor tree ps[i] 0 = some c ∧
      (redoItLoop tree mirror ps).2.1[i]? = some c := by
  intro ps
  induction ps with
  | nil =>
    intro i hi
    simp at hi
  | cons p rest ih =>
    intro i hi hok hskip
    simp only [redoItLoop] at hok ⊢
    split at hok
    · rename_i hcond
      cases i with
      | zero => exact absurd (by simpa using hcond) hskip
      | succ j =>
        have hj : j < rest.length := by simpa using hi
        simp only at hok
        obtain ⟨c, hc1, hc2⟩ := ih j hj hok (by simpa using hskip)
        refine ⟨c, by simpa using hc1, ?_⟩
        rw [if_pos hcond]
        simpa using hc2
    · rename_i hcond
      split at hok
      · simp at hok
      · rename_i c hc
        cases i with
        | zero =>
          refine ⟨c, by simpa using hc, ?_⟩
          rw [if_neg hcond]
          simp
        | succ j =>
          have hj : j < rest.length := by simpa using hi
          simp only at hok
          obtain ⟨c2, hc1, hc2⟩ := ih j hj hok (by simpa using hskip)
          refine ⟨c2, by simpa using hc1, ?_⟩
          rw [if_neg hcond]
          simpa using hc2

/-- The built tree is the `None` sentinel exactly on empty input. -/
theorem buildKdTree_eq_nil_iff (ps : List (Point R)) (d : Nat) :
    buildKdTree ps d = KdTree.nil ↔ ps = [] := by
  rw [buildKdTree_unfold]
  by_cases h : ps.length = 0
  · simp [h, List.eq_nil_of_length_eq_zero h]
  · simp only [h, if_false]
    constructor
    · intro hcon
      cases hcon
    · intro hnil
      rw [hnil] at h
      exact absurd rfl h

/-- With the mirror flag off, the tree is built from the reference groups
only. -/
theorem treeList_mirror_false (s : VMState R) (hm : s.mirror = false) :
    treeList s = s.refGroups.flatten := by
  simp [treeList, hm]

/-- With the mirror flag on, the tree is built from the mirrored target
points followed by the verbatim reference groups. -/
theorem treeList_mirror_true (s : VMState R) (hm : s.mirror = true) :
    treeList s = s.targets.map mirrorPoint ++ s.refGroups.flatten := by
  simp [treeList, hm]

/-- `redoIt` does not change the number of target points, completed or not. -/
theorem redoIt_targets_length (s : VMState R) :
    (redoIt s).1.targets.length = s.targets.length :=
  redoItLoop_length _ _ _

/-- Iterated `redoIt` does not change the number of target points. -/
theorem redoIts_targets_length (k : Nat) :
    ∀ s : VMState R, (redoIts k s).1.targets.length = s.targets.length := by
  induction k with
  | zero => intro s; rfl
  | succ k ih =>
    intro s
    calc (redoIts (k + 1) s).1.targets.length
        = (redoIts k (redoIt s).1).1.targets.length := rfl
      _ = (redoIt s).1.targets.length := ih _
      _ = s.targets.length := redoIt_targets_length s

/-- `redoIt` only ever appends to the snapshot list. -/
theorem redoIts_initialState_extend (k : Nat) :
    ∀ s : VMState R, ∃ tail, (redoIts k s).1.initialState = s.initialState ++ tail := by
  induction k with
  | zero => intro s; exact ⟨[], by simp [redoIts]⟩
  | succ k ih =>
    intro s
    obtain ⟨t2, ht2⟩ := ih (redoIt s).1
    refine ⟨(redoItLoop (buildKdTree (treeList s) 0) s.mirror s.targets).1 ++ t2, ?_⟩
    calc (redoIts (k + 1) s).1.initialState
        = (redoIts k (redoIt s).1).1.initialState := rfl
      _ = (redoIt s).1.initialState ++ t2 := ht2
      _ = s.initialState ++
          ((redoItLoop (buildKdTree (treeList s) 0) s.mirror s.targets).1 ++ t2) := by
          simp [redoIt]

/-- A target point that is already stored in the tree and is not skipped is
matched back to its own coordinates by a completed loop. -/
theorem redoItLoop_getElem_of_mem (tree : KdTree R) (mirror : Bool)
    (ps : List (Point R)) (i : Nat) (hi : i < ps.length)
    (hinv : kdInvariant tree 0 = true)
    (hmem : ps[i] ∈ tree.toList)
    (hskip : ¬(mirror = true ∧ 0 ≤ ps[i].x))
    (htree : tree ≠ KdTree.nil) :
    (redoItLoop tree mirror ps).2.1[i]? = some ps[i] := by
  have hok := redoItLoop_ok_of_ne_nil tree mirror htree ps
  obtain ⟨c, hcn, hce⟩ := redoItLoop_getElem_matched tree mirror ps i hi hok hskip
  have hle := nearestNeighbor_le tree ps[i] 0 c hinv hcn ps[i] hmem
  have hself : distanceSquare ps[i] ps[i] = 0 := (distanceSquare_eq_zero_iff _ _).mpr rfl
  have h0 : distanceSquare ps[i] c = 0 :=
    le_antisymm (hself ▸ hle) (distanceSquare_nonneg _ _)
  have hc : ps[i] = c := (distanceSquare_eq_zero_iff _ _).mp h0
  rw [hce, ← hc]

/-- After a completed match, running the match again with the same reference
groups and mirror flag leaves every target position unchanged. -/
theorem redoIt_twice_targets_eq (s : VMState R) (hok : (redoIt s).2 = true) :
    (redoIt (redoIt s).1).1.targets = (redoIt s).1.targets := by
  have hok1 : (redoItLoop (buildKdTree (treeList s) 0) s.mirror s.targets).2.2 = true := hok
  have htl : (redoIt s).1.targets =
      (redoItLoop (buildKdTree (treeList s) 0) s.mirror s.targets).2.1 := rfl
  have hmir : (redoIt s).1.mirror = s.mirror := rfl
  have href : (redoIt s).1.refGroups = s.refGroups := rfl
  have hlen1 : (redoIt s).1.targets.length = s.targets.length := redoIt_targets_length s
  show (redoItLoop (buildKdTree (treeList (redoIt s).1) 0) (redoIt s).1.mirror
      (redoIt s).1.targets).2.1 = (redoIt s).1.targets
  apply List.ext_getElem?
  intro i
  by_cases hi : i < (redoIt s).1.targets.length
  · rw [List.getElem?_eq_getElem hi]
    by_cases hskip2 : (redoIt s).1.mirror = true ∧ 0 ≤ (redoIt s).1.targets[i].x
    · obtain ⟨hm2, hx2⟩ := hskip2
      have hrw : (redoIt s).1.mirror = true := hm2
      rw [hrw]
      exact redoItLoop_getElem_skip _ (redoIt s).1.targets i hi hx2
    · have hi' : i < s.targets.length := hlen1 ▸ hi
      have hskip1 : ¬(s.mirror = true ∧ 0 ≤ s.targets[i].x) := by
        rintro ⟨hmt, hxx⟩
        have hsk := redoItLoop_getElem_skip (buildKdTree (treeList s) 0) s.targets i hi' hxx
        rw [← hmt] at hsk
        rw [← htl] at hsk
        rw [List.getElem?_eq_getElem hi] at hsk
        have heqi : (redoIt s).1.targets[i] = s.targets[i] := Option.some.inj hsk
        exact hskip2 ⟨hmir.trans hmt, by rw [heqi]; exact hxx⟩
      obtain ⟨c, hcn, hce⟩ := redoItLoop_getElem_matched (buildKdTree (treeList s) 0)
        s.mirror s.targets i hi' hok1 hskip1
      have hpc : (redoIt s).1.targets[i] = c := by
        rw [← htl] at hce
        rw [List.getElem?_eq_getElem hi] at hce
        exact Option.some.inj hce
      have hmemlist : c ∈ treeList s :=
        (buildKdTree_toList_perm (treeList s) 0).mem_iff.mp
          (nearestNeighbor_mem _ _ _ _ hcn)
      have hmem1 : (redoIt s).1.targets[i] ∈ treeList (redoIt s).1 := by
        rw [hpc]
        by_cases hm : s.mirror = true
        · have hx2 : ¬ 0 ≤ (redoIt s).1.targets[i].x := fun hx =>
            hskip2 ⟨hmir.trans hm, hx⟩
          rw [treeList_mirror_true s hm] at hmemlist
          rw [treeList_mirror_true (redoIt s).1 (hmir.trans hm)]
          rcases List.mem_append.mp hmemlist with hmap | hflat
          · obtain ⟨a, ha, hac⟩ := List.mem_map.mp hmap
            obtain ⟨j, hj, haj⟩ := List.mem_iff_getElem.mp ha
            have hcx : c.x < 0 := by
              rw [← hpc]
              exact lt_of_not_le hx2
            have hax : 0 ≤ a.x := by
              rw [← hac] at hcx
              simp only [mirrorPoint] at hcx
              linarith
            have hskj := redoItLoop_getElem_skip (buildKdTree (treeList s) 0) s.targets j hj
              (by rw [haj]; exact hax)
            rw [← hm] at hskj
            rw [← htl] at hskj
            have hj1 : j < (redoIt s).1.targets.length := hlen1 ▸ hj
            rw [List.getElem?_eq_getElem hj1] at hskj
            have hsj : (redoIt s).1.targets[j] = s.targets[j] := Option.some.inj hskj
            apply List.mem_append_left
            exact List.mem_map.mpr
              ⟨(redoIt s).1.targets[j], List.getElem_mem hj1, by rw [hsj, haj, hac]⟩
          · apply List.mem_append_right
            rw [href]
            exact hflat
        · have hm' : s.mirror = false := Bool.eq_false_iff.mpr hm
          rw [treeList_mirror_false s hm'] at hmemlist
          rw [treeList_mirror_false (redoIt s).1 (hmir.trans hm'), href]
          exact hmemlist
      have hne : treeList (redoIt s).1 ≠ [] := by
        intro hcon
        rw [hcon] at hmem1
        simp at hmem1
      have htree2 : buildKdTree (treeList (redoIt s).1) 0 ≠ KdTree.nil := by
        rw [ne_eq, buildKdTree_eq_nil_iff]
        exact hne
      have hmem2 : (redoIt s).1.targets[i] ∈ (buildKdTree (treeList (redoIt s).1) 0).toList :=
        (buildKdTree_toList_perm _ 0).mem_iff.mpr hmem1
      exact redoItLoop_getElem_of_mem _ _ _ i hi (buildKdTree_invariant _ 0) hmem2 hskip2 htree2
  · push_neg at hi
    rw [List.getElem?_eq_none (by rw [redoItLoop_length]; exact hi),
      List.getElem?_eq_none hi]

/-- C1: for every tree built by `buildKdTree` from a non-empty list of 3D
points and every query point, `nearestNeighbor` returns a point stored in
the tree whose squared Euclidean distance to the query is ≤ the squared
distance from the query to every input point — an exact 1-nearest-neighbor
result despite the far-branch pruning test. -/
theorem nearest_returns_closest_point (pts : List (Point R)) (q : Point R) (h : pts ≠ []) :
    ∃ r, nearestNeighbor (buildKdTree pts 0) q 0 = some r ∧
      r ∈ (buildKdTree pts 0).toList ∧
      ∀ p ∈ pts, distanceSquare q r ≤ distanceSquare q p := by
  have hne : buildKdTree pts 0 ≠ KdTree.nil := by
    rw [ne_eq, buildKdTree_eq_nil_iff]
    exact h
  obtain ⟨r, hr⟩ := nearestNeighbor_isSome (buildKdTree pts 0) q 0 hne
  refine ⟨r, hr, nearestNeighbor_mem _ _ _ _ hr, ?_⟩
  intro p hp
  have hmem : p ∈ (buildKdTree pts 0).toList := (buildKdTree_toList_perm pts 0).mem_iff.mpr hp
  exact nearestNeighbor_le _ q 0 r (buildKdTree_invariant pts 0) hr p hmem

/-- C1, witness: the concrete scenario of the specification, reference set
{(0,0,0), (10,0,0), (0,10,0)} and query (1,1,1). -/
theorem nearest_returns_closest_point_witness :
    ([⟨0, 0, 0⟩, ⟨10, 0, 0⟩, ⟨0, 10, 0⟩] ≠ ([] : List (Point ℤ))) ∧
    (∃ r, nearestNeighbor (buildKdTree [(⟨0, 0, 0⟩ : Point ℤ), ⟨10, 0, 0⟩, ⟨0, 10, 0⟩] 0)
        ⟨1, 1, 1⟩ 0 = some r ∧
      r ∈ (buildKdTree [(⟨0, 0, 0⟩ : Point ℤ), ⟨10, 0, 0⟩, ⟨0, 10, 0⟩] 0).toList ∧
      ∀ p ∈ [(⟨0, 0, 0⟩ : Point ℤ), ⟨10, 0, 0⟩, ⟨0, 10, 0⟩],
        distanceSquare ⟨1, 1, 1⟩ r ≤ distanceSquare ⟨1, 1, 1⟩ p) :=
  ⟨by decide, nearest_returns_closest_point _ _ (by decide)⟩

/-- C2, counterexample: with the mirror flag on, the collection handed to
`buildKdTree` is the mirrored TARGET points followed by the verbatim
reference points — not the mirrored reference points, which it differs
from, and a target-derived point is included. -/
theorem mirror_collection_spec_counterexample :
    treeList (⟨[⟨1, 2, 3⟩], [[⟨4, 5, 6⟩]], true, []⟩ : VMState ℤ) = [⟨-1, 2, 3⟩, ⟨4, 5, 6⟩] ∧
    specMirrorCollection (⟨[⟨1, 2, 3⟩], [[⟨4, 5, 6⟩]], true, []⟩ : VMState ℤ) = [⟨-4, 5, 6⟩] ∧
    treeList (⟨[⟨1, 2, 3⟩], [[⟨4, 5, 6⟩]], true, []⟩ : VMState ℤ) ≠
      specMirrorCollection (⟨[⟨1, 2, 3⟩], [[⟨4, 5, 6⟩]], true, []⟩ : VMState ℤ) ∧
    mirrorPoint (⟨1, 2, 3⟩ : Point ℤ) ∈
      treeList (⟨[⟨1, 2, 3⟩], [[⟨4, 5, 6⟩]], true, []⟩ : VMState ℤ) := by
  decide

/-- C2, amended: when the mirror flag is true, the collection the KdTree is
built from is exactly the TARGET-group points with each x coordinate
negated, followed by the reference-group points verbatim; the mirror
transform is applied only to target-group points and never to
reference-group points. -/
theorem mirror_collection_is_mirrored_targets (s : VMState R) (h : s.mirror = true) :
    treeList s = s.targets.map mirrorPoint ++ s.refGroups.flatten :=
  treeList_mirror_true s h

/-- C2, witness for the amended statement. -/
theorem mirror_collection_is_mirrored_targets_witness :
    (⟨[⟨1, 2, 3⟩], [[⟨4, 5, 6⟩]], true, []⟩ : VMState ℤ).mirror = true ∧
    treeList (⟨[⟨1, 2, 3⟩], [[⟨4, 5, 6⟩]], true, []⟩ : VMState ℤ) =
      (⟨[⟨1, 2, 3⟩], [[⟨4, 5, 6⟩]], true, []⟩ : VMState ℤ).targets.map mirrorPoint ++
      (⟨[⟨1, 2, 3⟩], [[⟨4, 5, 6⟩]], true, []⟩ : VMState ℤ).refGroups.flatten :=
  ⟨by decide, mirror_collection_is_mirrored_targets _ (by decide)⟩

/-- C3: the multiset of points stored across the nodes of the tree returned
by `buildKdTree` equals the multiset of input points: nothing is lost,
duplicated or altered. -/
theorem build_tree_stores_exactly_the_input_points (pts : List (Point R)) :
    (buildKdTree pts 0).toList.Perm pts :=
  buildKdTree_toList_perm pts 0

/-- C4: any number of completed matches on the same target group followed by
one reversal restores every target position to its value before the first
match, in the recorded index order. -/
theorem undoIt_after_redoIts (k : Nat) (s : VMState R)
    (hinit : s.initialState = []) (hok : (redoIts (k + 1) s).2 = true) :
    ∃ s2, undoIt (redoIts (k + 1) s).1 = some s2 ∧ s2.targets = s.targets := by
  have hok1 : (redoIt s).2 = true := by
    have hsplit : (redoIts (k + 1) s).2 = ((redoIt s).2 && (redoIts k (redoIt s).1).2) := rfl
    rw [hsplit, Bool.and_eq_true] at hok
    exact hok.1
  have hsnap : (redoItLoop (buildKdTree (treeList s) 0) s.mirror s.targets).1 = s.targets :=
    redoItLoop_snap_of_ok _ _ _ hok1
  have hinit1 : (redoIt s).1.initialState = s.targets := by
    have hdef : (redoIt s).1.initialState =
        s.initialState ++ (redoItLoop (buildKdTree (treeList s) 0) s.mirror s.targets).1 := rfl
    rw [hdef, hinit, hsnap]
    simp
  obtain ⟨tail, htail⟩ := redoIts_initialState_extend k (redoIt s).1
  have hfin : (redoIts (k + 1) s).1.initialState = s.targets ++ tail := by
    have hdef : (redoIts (k + 1) s).1.initialState =
        (redoIts k (redoIt s).1).1.initialState := rfl
    rw [hdef, htail, hinit1]
  have hlen : (redoIts (k + 1) s).1.targets.length = s.targets.length :=
    redoIts_targets_length (k + 1) s
  have hcond : (redoIts (k + 1) s).1.targets.length ≤
      (redoIts (k + 1) s).1.initialState.length := by
    rw [hlen, hfin, List.length_append]
    omega
  refine ⟨{ (redoIts (k + 1) s).1 with
      targets := (redoIts (k + 1) s).1.initialState.take
        (redoIts (k + 1) s).1.targets.length }, ?_, ?_⟩
  · unfold undoIt
    rw [if_pos hcond]
  · simp only
    rw [hlen, hfin]
    exact List.take_left _ _

/-- C4, witness: two matches of (0,0,1) onto the reference point (3,3,3),
then one reversal, which restores (0,0,1). -/
theorem undoIt_after_redoIts_witness :
    (⟨[⟨0, 0, 1⟩], [[⟨3, 3, 3⟩]], false, []⟩ : VMState ℤ).initialState = [] ∧
    (redoIts 2 (⟨[⟨0, 0, 1⟩], [[⟨3, 3, 3⟩]], false, []⟩ : VMState ℤ)).2 = true ∧
    ∃ s2, undoIt (redoIts 2 (⟨[⟨0, 0, 1⟩], [[⟨3, 3, 3⟩]], false, []⟩ : VMState ℤ)).1 = some s2 ∧
      s2.targets = (⟨[⟨0, 0, 1⟩], [[⟨3, 3, 3⟩]], false, []⟩ : VMState ℤ).targets :=
  ⟨by decide, by decide, undoIt_after_redoIts 1 _ (by decide) (by decide)⟩

/-- C5, counterexample: with zero reference points (a single selected group)
and the mirror flag on, the match does NOT fail — the tree is built from the
mirrored target points, the loop completes, and the target position is
altered. -/
theorem empty_reference_mirror_counterexample :
    (redoIt (⟨[⟨-1, 0, 0⟩], [], true, []⟩ : VMState ℤ)).2 = true ∧
    (redoIt (⟨[⟨-1, 0, 0⟩], [], true, []⟩ : VMState ℤ)).1.targets = [⟨1, 0, 0⟩] ∧
    [(⟨1, 0, 0⟩ : Point ℤ)] ≠ [⟨-1, 0, 0⟩] := by
  decide

/-- C5, amended: only when the mirror flag is false does an empty reference
collection make the match fail; it fails at the first target point with a
host-level type error (writing back the absent result), leaving every
target position unaltered, but the first target position has already been
recorded in the snapshot.  With the mirror flag on, the tree also contains
the mirrored target points and the match can succeed and alter positions. -/
theorem empty_reference_unmirrored_fails (s : VMState R) (p : Point R)
    (rest : List (Point R)) (hm : s.mirror = false)
    (hr : s.refGroups.flatten = []) (ht : s.targets = p :: rest) :
    (redoIt s).2 = false ∧ (redoIt s).1.targets = s.targets ∧
    (redoIt s).1.initialState = s.initialState ++ [p] := by
  have htree : buildKdTree (treeList s) 0 = KdTree.nil := by
    rw [buildKdTree_eq_nil_iff, treeList_mirror_false s hm]
    exact hr
  have hloop : redoItLoop (buildKdTree (treeList s) 0) s.mirror s.targets =
      ([p], p :: rest, false) := by
    rw [htree, ht, hm]
    simp [redoItLoop, nearestNeighbor]
  refine ⟨?_, ?_, ?_⟩
  · show (redoItLoop (buildKdTree (treeList s) 0) s.mirror s.targets).2.2 = false
    rw [hloop]
  · show (redoItLoop (buildKdTree (treeList s) 0) s.mirror s.targets).2.1 = s.targets
    rw [hloop, ht]
  · show s.initialState ++ (redoItLoop (buildKdTree (treeList s) 0) s.mirror s.targets).1 =
      s.initialState ++ [p]
    rw [hloop]

/-- C5, witness for the amended statement: one target point, one empty
reference group, mirror off. -/
theorem empty_reference_unmirrored_fails_witness :
    (⟨[⟨5, 5, 5⟩], [[]], false, []⟩ : VMState ℤ).mirror = false ∧
    (⟨[⟨5, 5, 5⟩], [[]], false, []⟩ : VMState ℤ).refGroups.flatten = [] ∧
    (⟨[⟨5, 5, 5⟩], [[]], false, []⟩ : VMState ℤ).targets = [⟨5, 5, 5⟩] ∧
    ((redoIt (⟨[⟨5, 5, 5⟩], [[]], false, []⟩ : VMState ℤ)).2 = false ∧
      (redoIt (⟨[⟨5, 5, 5⟩], [[]], false, []⟩ : VMState ℤ)).1.targets =
        (⟨[⟨5, 5, 5⟩], [[]], false, []⟩ : VMState ℤ).targets ∧
      (redoIt (⟨[⟨5, 5, 5⟩], [[]], false, []⟩ : VMState ℤ)).1.initialState =
        (⟨[⟨5, 5, 5⟩], [[]], false, []⟩ : VMState ℤ).initialState ++ [⟨5, 5, 5⟩]) :=
  ⟨by decide, by decide, by decide,
    empty_reference_unmirrored_fails _ ⟨5, 5, 5⟩ [] (by decide) (by decide) (by decide)⟩

/-- C6: with the mirror flag on, a target point with x ≥ 0 is skipped: its
position is unchanged by the match while its original position is still
recorded in the snapshot at the corresponding index. -/
theorem mirror_skip_preserves_position (s : VMState R) (i : Nat)
    (hm : s.mirror = true) (hi : i < s.targets.length) (hx : 0 ≤ s.targets[i].x) :
    (redoIt s).1.targets[i]? = some s.targets[i] ∧
    (redoIt s).1.initialState[s.initialState.length + i]? = some s.targets[i] := by
  have hne : s.targets ≠ [] := by
    intro h0
    rw [h0] at hi
    simp at hi
  have htl : treeList s ≠ [] := by
    rw [treeList_mirror_true s hm]
    simp only [ne_eq, List.append_eq_nil, List.map_eq_nil_iff]
    rintro ⟨h1, -⟩
    exact hne h1
  have htree : buildKdTree (treeList s) 0 ≠ KdTree.nil := by
    rw [ne_eq, buildKdTree_eq_nil_iff]
    exact htl
  have hok := redoItLoop_ok_of_ne_nil (buildKdTree (treeList s) 0) s.mirror htree s.targets
  have hsnap := redoItLoop_snap_of_ok (buildKdTree (treeList s) 0) s.mirror s.targets hok
  constructor
  · show (redoItLoop (buildKdTree (treeList s) 0) s.mirror s.targets).2.1[i]? = _
    rw [hm]
    exact redoItLoop_getElem_skip _ s.targets i hi hx
  · show (s.initialState ++
        (redoItLoop (buildKdTree (treeList s) 0) s.mirror s.targets).1)[
          s.initialState.length + i]? = _
    rw [hsnap, List.getElem?_append_right (Nat.le_add_right _ _), Nat.add_sub_cancel_left]
    exact List.getElem?_eq_getElem hi

/-- C6, witness: the target (2,0,0) with x ≥ 0 under mirror is left in place
and still snapshotted at index 0. -/
theorem mirror_skip_preserves_position_witness :
    (⟨[⟨2, 0, 0⟩], [[⟨7, 1, 1⟩]], true, []⟩ : VMState ℤ).mirror = true ∧
    ((redoIt (⟨[⟨2, 0, 0⟩], [[⟨7, 1, 1⟩]], true, []⟩ : VMState ℤ)).1.targets[0]? =
      some ⟨2, 0, 0⟩ ∧
    (redoIt (⟨[⟨2, 0, 0⟩], [[⟨7, 1, 1⟩]], true, []⟩ : VMState ℤ)).1.initialState[0]? =
      some ⟨2, 0, 0⟩) :=
  ⟨by decide, mirror_skip_preserves_position _ 0 (by decide) (by decide) (by decide)⟩

/-- C7: running the match a second time, with the already-matched target
positions as the target group and the same unchanged reference groups and
mirror flag, changes no target position. -/
theorem rematch_changes_nothing (s : VMState R) (hok : (redoIt s).2 = true) :
    (redoIt (redoIt s).1).1.targets = (redoIt s).1.targets :=
  redoIt_twice_targets_eq s hok

/-- C7, witness: matching [(-2,0,0), (5,0,0)] under mirror moves the first
point to (-5,0,0); a second match moves nothing. -/
theorem rematch_changes_nothing_witness :
    (redoIt (⟨[⟨-2, 0, 0⟩, ⟨5, 0, 0⟩], [], true, []⟩ : VMState ℤ)).2 = true ∧
    (redoIt (redoIt (⟨[⟨-2, 0, 0⟩, ⟨5, 0, 0⟩], [], true, []⟩ : VMState ℤ)).1).1.targets =
      (redoIt (⟨[⟨-2, 0, 0⟩, ⟨5, 0, 0⟩], [], true, []⟩ : VMState ℤ)).1.targets :=
  ⟨by decide, rematch_changes_nothing _ (by decide)⟩

/-- C8, counterexample: two identical points build a tree whose negative
subtree holds a point with axis coordinate EQUAL to the node point, so the
strict version of the invariant fails; the non-strict version holds. -/
theorem strict_invariant_counterexample :
    kdInvariantStrict (buildKdTree [(⟨0, 0, 0⟩ : Point ℤ), ⟨0, 0, 0⟩] 0) 0 = false ∧
    kdInvariant (buildKdTree [(⟨0, 0, 0⟩ : Point ℤ), ⟨0, 0, 0⟩] 0) 0 = true := by
  decide

/-- C8, amended: in every tree returned by `buildKdTree`, at every node of
depth d with axis a = d mod 3, every point in the negative subtree has
coordinate a LESS THAN OR EQUAL TO (not strictly less than) the node point
coordinate a, and every point in the positive subtree has coordinate a
greater than or equal to it. -/
theorem build_tree_splitting_invariant (pts : List (Point R)) (depth : Nat) :
    kdInvariant (buildKdTree pts depth) depth = true :=
  buildKdTree_invariant pts depth

/-- C9, counterexample: on an exact distance tie between two present
candidates, `closerDistance` returns its SECOND candidate argument, not the
first-compared one. -/
theorem closer_distance_tie_counterexample :
    distanceSquare (⟨0, 0, 0⟩ : Point ℤ) ⟨1, 0, 0⟩ =
      distanceSquare (⟨0, 0, 0⟩ : Point ℤ) ⟨-1, 0, 0⟩ ∧
    closerDistance (⟨0, 0, 0⟩ : Point ℤ) (some ⟨1, 0, 0⟩) (some ⟨-1, 0, 0⟩) =
      some ⟨-1, 0, 0⟩ ∧
    (⟨-1, 0, 0⟩ : Point ℤ) ≠ ⟨1, 0, 0⟩ := by
  decide

/-- C9, amended: on an exact distance tie between two present candidates,
`closerDistance` returns its second candidate argument; absence always loses
to a present candidate; being a function of its arguments, the choice is
deterministic for identical input order. -/
theorem closer_distance_tie_keeps_second (piv p1 p2 : Point R)
    (h : distanceSquare piv p1 = distanceSquare piv p2) :
    closerDistance piv (some p1) (some p2) = some p2 ∧
    closerDistance piv none (some p2) = some p2 ∧
    closerDistance piv (some p1) none = some p1 := by
  refine ⟨?_, rfl, rfl⟩
  simp [closerDistance, h]

/-- C9, witness: the tie (3,0,0) vs (0,3,0) about the origin. -/
theorem closer_distance_tie_keeps_second_witness :
    distanceSquare (⟨0, 0, 0⟩ : Point ℤ) ⟨3, 0, 0⟩ =
      distanceSquare (⟨0, 0, 0⟩ : Point ℤ) ⟨0, 3, 0⟩ ∧
    (closerDistance (⟨0, 0, 0⟩ : Point ℤ) (some ⟨3, 0, 0⟩) (some ⟨0, 3, 0⟩) = some ⟨0, 3, 0⟩ ∧
      closerDistance (⟨0, 0, 0⟩ : Point ℤ) none (some ⟨0, 3, 0⟩) = some ⟨0, 3, 0⟩ ∧
      closerDistance (⟨0, 0, 0⟩ : Point ℤ) (some ⟨3, 0, 0⟩) none = some ⟨3, 0, 0⟩) :=
  ⟨by decide, closer_distance_tie_keeps_second _ _ _ (by decide)⟩

/-- C10: querying the empty tree (the `None` sentinel) is total and returns
the absent sentinel at every depth, for every query point. -/
theorem nearest_on_empty_tree_returns_none (q : Point R) (d : Nat) :
    nearestNeighbor (KdTree.nil : KdTree R) q d = none :=
  rfl

end VertMatch
